import Mathlib

/-!
Verification of the CmdVault command-snippet manager.

The development shallowly embeds the TypeScript sources:
- the template engine of src/types.ts (extractVariables, replaceVariables),
- the filtering, save and delete handlers of src/App.tsx,
- the dashboard aggregation of src/components/Dashboard.tsx,
- the AI-assist service (src/unnamed/part_000, generateCommandFromDescription)
  and its caller handleAiGenerate in src/components/CommandEditor.tsx.

Modelling conventions:
- JavaScript strings are Lean String (a list of Char); String.trim is modelled
  with Char.isWhitespace.
- A JavaScript object used as a string-keyed record is modelled as an
  insertion-ordered association list with own-key lookup; Object.values
  enumerates the values in that order.
- The regex /\x7b\x7b([^\x7d]+)\x7d\x7d/g performs leftmost scanning.  A match at
  position i needs two opening braces, then a maximal nonempty run of
  characters other than a closing brace, then two closing braces; on failure
  the scanner retries from position i+1.  Backtracking never helps this
  pattern, so the scan below is exactly the regex semantics.  The scanner is
  written with explicit fuel so that it is structurally recursive and every
  definition evaluates inside the kernel; fuel equal to the length of the
  string is always sufficient since every step consumes at least one
  character.
-/

namespace CmdVault

/-- Data model of src/types.ts: a stored command. -/
structure Command where
  id : String
  title : String
  template : String
  description : String
  category : String
  tags : List String
  createdAt : Nat
deriving DecidableEq

/-- Data model of src/types.ts: the editor form data
(a Command without id and createdAt). -/
structure CommandFormData where
  title : String
  template : String
  description : String
  category : String
  tags : List String
deriving DecidableEq

/-- Data model of src/types.ts: one clipboard-copy event. -/
structure CopyLog where
  id : String
  commandId : String
  template : String
  title : String
  filledCommand : String
  timestamp : Nat
deriving DecidableEq

/-- A Record of variable name to value, as an insertion-ordered
association list. -/
abbrev Bindings := List (String × String)

/-- Own-property lookup in a Record; keys are unique in a JS object,
first match wins. -/
def lookupVal : Bindings → String → Option String
  | [], _ => none
  | (k, v) :: rest, key => if key = k then some v else lookupVal rest key

/-- JavaScript String.prototype.trim on a list of characters. -/
def trimChars (l : List Char) : List Char :=
  ((l.dropWhile Char.isWhitespace).reverse.dropWhile Char.isWhitespace).reverse

/-- One fragment of a template as decomposed by the regex scan: a literal
character, or one placeholder with its raw (untrimmed) captured name. -/
inductive Piece where
  | lit (c : Char)
  | var (raw : List Char)
deriving DecidableEq

/-- The leftmost regex scan of /\x7b\x7b([^\x7d]+)\x7d\x7d/g, producing the
decomposition of the template into literal characters and placeholder
matches.  Both extractVariables and replaceVariables of src/types.ts run this
same scan. -/
def piecesFuel : Nat → List Char → List Piece
  | 0, s => s.map Piece.lit
  | _ + 1, [] => []
  | _ + 1, [c] => [Piece.lit c]
  | fuel + 1, c1 :: c2 :: rest =>
    if c1 = '\x7b' ∧ c2 = '\x7b' ∧ rest.takeWhile (fun c => c != '\x7d') ≠ [] ∧
        (rest.dropWhile (fun c => c != '\x7d')).take 2 = ['\x7d', '\x7d'] then
      Piece.var (rest.takeWhile (fun c => c != '\x7d')) ::
        piecesFuel fuel ((rest.dropWhile (fun c => c != '\x7d')).drop 2)
    else
      Piece.lit c1 :: piecesFuel fuel (c2 :: rest)

/-- The scan of a template string, with sufficient fuel. -/
def piecesOf (template : String) : List Piece :=
  piecesFuel template.data.length template.data

/-- The raw captured name of a placeholder piece. -/
def varRaw : Piece → Option (List Char)
  | Piece.var raw => some raw
  | Piece.lit _ => none

/-- The raw (untrimmed) captured names of the template, in match order,
with repetitions. -/
def rawNames (template : String) : List (List Char) :=
  (piecesOf template).filterMap varRaw

/-- The trimmed names of the template, in match order, with repetitions. -/
def trimmedNames (template : String) : List String :=
  (rawNames template).map (fun raw => String.mk (trimChars raw))

/-- Deduplication keeping the first occurrence of each element, as a JS Set
collects insertions; the accumulator holds the names already seen. -/
def dedupAux (seen : List String) : List String → List String
  | [] => []
  | x :: xs => if x ∈ seen then dedupAux seen xs else x :: dedupAux (x :: seen) xs

/-- Array.from of a Set built by inserting the elements of l in order. -/
def dedupFirst (l : List String) : List String :=
  dedupAux [] l

/-- src/types.ts extractVariables: collect the trimmed captured names into a
Set and return them as an array (distinct, in first-insertion order). -/
def extractVariables (template : String) : List String :=
  dedupFirst (trimmedNames template)

/-- The literal text matched by a placeholder with raw name raw: two opening
braces, the raw name, two closing braces. -/
def marker (raw : List Char) : List Char :=
  '\x7b' :: '\x7b' :: (raw ++ ['\x7d', '\x7d'])

/-- The replacement the callback of src/types.ts replaceVariables produces
for one match: the bound value when it is present and non-empty (truthy),
otherwise the original matched text rebuilt from the raw name. -/
def substFor (values : Bindings) (raw : List Char) : List Char :=
  match lookupVal values (String.mk (trimChars raw)) with
  | some v => if v = "" then marker raw else v.data
  | none => marker raw

/-- Rendering of one piece of the decomposition: literal characters are
copied verbatim, matches are replaced by the callback result. -/
def renderPiece (values : Bindings) : Piece → List Char
  | Piece.lit c => [c]
  | Piece.var raw => substFor values raw

/-- src/types.ts replaceVariables: String.prototype.replace with the global
placeholder regex and the lookup-or-keep callback. -/
def replaceVariables (template : String) (values : Bindings) : String :=
  String.mk (((piecesOf template).map (renderPiece values)).flatten)

/-! App layer (src/App.tsx). -/

/-- Case-insensitive lowering of a string, as String.prototype.toLowerCase. -/
def toLowerStr (s : String) : String :=
  String.mk (s.data.map Char.toLower)

/-- Substring containment, as String.prototype.includes: some contiguous run
of hay equals needle.  An empty needle is contained in every string. -/
def containsSub (needle : List Char) : List Char → Bool
  | [] => needle.isEmpty
  | c :: rest => needle.isPrefixOf (c :: rest) || containsSub needle rest

/-- hay.toLowerCase().includes(needle.toLowerCase()) as used by the search
filter. -/
def includesCI (hay needle : String) : Bool :=
  containsSub (toLowerStr needle).data (toLowerStr hay).data

/-- The matchesSearch predicate of filteredCommands in src/App.tsx. -/
def matchesSearch (searchQuery : String) (cmd : Command) : Bool :=
  includesCI cmd.title searchQuery || includesCI cmd.description searchQuery ||
    cmd.tags.any (fun t => includesCI t searchQuery)

/-- The matchesCategory predicate of filteredCommands in src/App.tsx. -/
def matchesCategory (selectedCategory : String) (cmd : Command) : Bool :=
  decide (selectedCategory = "All") || decide (cmd.category = selectedCategory)

/-- filteredCommands of src/App.tsx: commands passing both predicates. -/
def filteredCommands (searchQuery selectedCategory : String)
    (commands : List Command) : List Command :=
  commands.filter (fun cmd => matchesSearch searchQuery cmd &&
    matchesCategory selectedCategory cmd)

/-- The record update performed by the editing branch of handleSaveCommand:
spread the form data, then keep the stored id and createdAt. -/
def updateFields (data : CommandFormData) (c : Command) : Command :=
  { id := c.id, title := data.title, template := data.template,
    description := data.description, category := data.category,
    tags := data.tags, createdAt := c.createdAt }

/-- handleSaveCommand of src/App.tsx.  Editing an existing command maps over
the collection replacing the matching id in place; creating prepends a fresh
command built from the form data, a new id and the current time. -/
def handleSaveCommand (editing : Option Command) (data : CommandFormData)
    (newId : String) (now : Nat) (prev : List Command) : List Command :=
  match editing with
  | some ec => prev.map (fun c => if c.id = ec.id then updateFields data c else c)
  | none =>
    { id := newId, title := data.title, template := data.template,
      description := data.description, category := data.category,
      tags := data.tags, createdAt := now } :: prev

/-- handleSaveCommand together with the user-visible notices it emits.  The
handler's body only calls setCommands: it contains no alert call, no thrown
error and no other reporting path, so the notice list is always empty. -/
def handleSaveEffects (editing : Option Command) (data : CommandFormData)
    (newId : String) (now : Nat) (prev : List Command) :
    List Command × List String :=
  (handleSaveCommand editing data newId now prev, [])

/-- handleDeleteCommand of src/App.tsx: keep exactly the commands whose id
differs. -/
def handleDeleteCommand (id : String) (prev : List Command) : List Command :=
  prev.filter (fun c => c.id != id)

/-! Dashboard aggregation (src/components/Dashboard.tsx).  The record
instanceCounts keyed by filledCommand is an insertion-ordered association
list; its entries carry the running count, the resolved text and the title of
the first log that created the entry. -/

/-- One aggregated entry of the by-exact-resolved-string view. -/
structure InstanceStat where
  count : Nat
  text : String
  originalTitle : String
deriving DecidableEq

/-- Processing one log into instanceCounts: initialise the entry on first
sight (count 0, then incremented, hence 1), otherwise increment the stored
count in place. -/
def bumpInstance (entries : List (String × InstanceStat)) (log : CopyLog) :
    List (String × InstanceStat) :=
  if entries.any (fun e => decide (e.1 = log.filledCommand)) then
    entries.map (fun e =>
      if e.1 = log.filledCommand then (e.1, { e.2 with count := e.2.count + 1 }) else e)
  else
    entries ++ [(log.filledCommand,
      { count := 1, text := log.filledCommand, originalTitle := log.title })]

/-- The forEach loop of the stats memo building instanceCounts. -/
def instanceEntries (logs : List CopyLog) : List (String × InstanceStat) :=
  logs.foldl bumpInstance []

/-- Stable insertion placing e before the first element of strictly smaller
count and after elements of greater or equal count. -/
def insertDescBy {α : Type} (cnt : α → Nat) (e : α) : List α → List α
  | [] => [e]
  | f :: fs => if cnt f ≤ cnt e then e :: f :: fs else f :: insertDescBy cnt e fs

/-- Stable sort by descending count, as the ES2019 Array.prototype.sort with
comparator (a, b) => b.count - a.count. -/
def sortDescBy {α : Type} (cnt : α → Nat) : List α → List α
  | [] => []
  | e :: es => insertDescBy cnt e (sortDescBy cnt es)

/-- topInstances of the stats memo: Object.values in entry order, stable sort
by descending count, slice(0, 10). -/
def topInstances (logs : List CopyLog) : List InstanceStat :=
  (sortDescBy (fun st => st.count) ((instanceEntries logs).map Prod.snd)).take 10

/-- The distinct resolved strings in first-encountered order
(spec wording for the groups of the by-exact-resolved-string view). -/
def specGroups (logs : List CopyLog) : List String :=
  dedupFirst (logs.map (fun log => log.filledCommand))

/-- The number of logs whose resolved string is s. -/
def countFilled (logs : List CopyLog) (s : String) : Nat :=
  (logs.filter (fun log => decide (log.filledCommand = s))).length

/-- The title of the first log whose resolved string is s. -/
def firstTitle (logs : List CopyLog) (s : String) : String :=
  match logs.find? (fun log => decide (log.filledCommand = s)) with
  | some log => log.title
  | none => ""

/-- The association list instanceCounts in closed form: one entry per
distinct resolved string in first-encountered order, carrying the total
count and the title of the first log of the group. -/
def canonicalEntries (logs : List CopyLog) : List (String × InstanceStat) :=
  (specGroups logs).map (fun s =>
    (s, { count := countFilled logs s, text := s, originalTitle := firstTitle logs s }))

/-- Specification-side definition, following the words of spec section 4.4:
group logs with identical resolved text, count occurrences per group, list
the groups in first-encountered order, stable-sort descending by count and
take the top 10. -/
def specTopInstances (logs : List CopyLog) : List (String × Nat) :=
  (sortDescBy (fun p => p.2)
    ((specGroups logs).map (fun s => (s, countFilled logs s)))).take 10

/-! AI-assist collaborator (src/unnamed/part_000 and the handleAiGenerate
handler of src/components/CommandEditor.tsx).  The network exchange and
JSON.parse are external effects; they enter the embedding as explicit
outcomes: the request either throws or yields a response whose text field
may be absent, and parsing either yields an arbitrary JSON value or throws.
The source casts the parsed value to CommandFormData without checking it, so
the success case of the service carries a raw JSON value. -/

/-- Outcome of the awaited generateContent call. -/
inductive NetOutcome where
  | fail (msg : String)
  | success (text : Option String)
deriving DecidableEq

/-- A JSON value as produced by JSON.parse. -/
inductive JsonValue where
  | null
  | bool (b : Bool)
  | num (n : Int)
  | str (s : String)
  | arr (elems : List JsonValue)
  | obj (fields : List (String × JsonValue))

/-- Result of generateCommandFromDescription: the parsed JSON value that the
unchecked cast of the source returns as a CommandFormData, or the message of
the error the function throws.  The source performs no validation of the
parsed value, so the success case carries an arbitrary JSON value. -/
inductive AiResult where
  | ok (value : JsonValue)
  | error (msg : String)

/-- Field lookup in a parsed JSON object (own properties, first match). -/
def jsonField : List (String × JsonValue) → String → Option JsonValue
  | [], _ => none
  | (k, v) :: rest, key => if key = k then some v else jsonField rest key

def isStringValue : JsonValue → Bool
  | JsonValue.str _ => true
  | _ => false

/-- The Command shape the AI response is supposed to have (the responseSchema
the service declares in its request, and the CommandFormData type the cast
asserts): an object whose title, template, description and category fields
are strings and whose tags field is an array of strings.  The source never
checks this shape on the parsed value. -/
def commandShaped : JsonValue → Bool
  | JsonValue.obj fields =>
    (match jsonField fields "title" with
      | some (JsonValue.str _) => true
      | _ => false) &&
    (match jsonField fields "template" with
      | some (JsonValue.str _) => true
      | _ => false) &&
    (match jsonField fields "description" with
      | some (JsonValue.str _) => true
      | _ => false) &&
    (match jsonField fields "category" with
      | some (JsonValue.str _) => true
      | _ => false) &&
    (match jsonField fields "tags" with
      | some (JsonValue.arr elems) => elems.all isStringValue
      | _ => false)
  | _ => false

/-- generateCommandFromDescription of the gemini service: reject a missing
API key before issuing the request; rethrow a network error; on a truthy
response text run JSON.parse (a parse failure is rethrown) and return the
parsed value as a success through the unchecked cast, whatever its shape;
report an empty response otherwise. -/
def generateCommandFromDescription (apiKey : String) (net : NetOutcome)
    (parse : String → Option JsonValue) : AiResult :=
  if apiKey = "" then
    AiResult.error "API Key is missing. Please check your environment configuration."
  else
    match net with
    | NetOutcome.fail msg => AiResult.error msg
    | NetOutcome.success none => AiResult.error "Empty response from AI"
    | NetOutcome.success (some t) =>
      if t = "" then AiResult.error "Empty response from AI"
      else
        match parse t with
        | some v => AiResult.ok v
        | none => AiResult.error "JSON parse error"

/-- The editor state touched by handleAiGenerate: the runtime value held by
the formData state hook (typed CommandFormData, but after an AI fill it is
whatever value the service returned), and the alert notices shown so far. -/
structure EditorState where
  formData : JsonValue
  notices : List String

/-- handleAiGenerate of CommandEditor: return early on a blank prompt; on
success overwrite the whole form with the generated value, without any
validation; on any failure alert and leave the form as it was. -/
def handleAiGenerate (aiPrompt : String) (result : AiResult)
    (st : EditorState) : EditorState :=
  if String.mk (trimChars aiPrompt.data) = "" then st
  else
    match result with
    | AiResult.ok v => { st with formData := v }
    | AiResult.error _ =>
      { st with notices := st.notices ++
          ["Failed to generate command. Please check your API key or try again."] }

/-- A well-shaped runtime form value: the state of the editor before an AI
request. -/
def editorDemo : EditorState :=
  { formData := JsonValue.obj
      [("title", JsonValue.str "Git Commit"),
       ("template", JsonValue.str "git commit -m \x22\x7b\x7bmessage\x7d\x7d\x22"),
       ("description", JsonValue.str "Commit staged changes."),
       ("category", JsonValue.str "Git"),
       ("tags", JsonValue.arr [JsonValue.str "git"])],
    notices := [] }

/-- A well-shaped generated value for exercising the success path. -/
def formJson : JsonValue :=
  JsonValue.obj
    [("title", JsonValue.str "List Files"),
     ("template", JsonValue.str "ls -la"),
     ("description", JsonValue.str "List the current directory."),
     ("category", JsonValue.str "System"),
     ("tags", JsonValue.arr [JsonValue.str "ls"])]

/-- Index of the first occurrence of x in l (length of l when absent). -/
def firstIdx : List String → String → Nat
  | [], _ => 0
  | y :: ys, x => if y = x then 0 else firstIdx ys x + 1

/-- A piece makes no substitution under values: it is a literal character, or
its trimmed name is unbound or bound to the empty string. -/
def varUnbound (values : Bindings) (p : Piece) : Prop :=
  match p with
  | Piece.lit _ => True
  | Piece.var raw =>
    lookupVal values (String.mk (trimChars raw)) = none ∨
      lookupVal values (String.mk (trimChars raw)) = some ""

instance (values : Bindings) (p : Piece) : Decidable (varUnbound values p) :=
  match p with
  | Piece.lit _ => Decidable.isTrue trivial
  | Piece.var _ => inferInstanceAs (Decidable (_ ∨ _))

/-! Store handlers: demonstration records. -/

def cmdA : Command :=
  ⟨"1", "Git Commit", "git commit -m \x22\x7b\x7bmessage\x7d\x7d\x22",
    "Commit staged changes.", "Git", ["git"], 10⟩

def cmdB : Command :=
  ⟨"2", "Find Large Files", "find \x7b\x7bpath\x7d\x7d -type f -size +\x7b\x7bsize\x7d\x7d",
    "Search files.", "System", ["linux"], 20⟩

def cmdGhost : Command := ⟨"zzz", "Ghost", "echo", "", "General", [], 0⟩

def formDemo : CommandFormData :=
  ⟨"New Title", "echo \x7b\x7bmsg\x7d\x7d", "Updated.", "Shell", ["echo"]⟩

end CmdVault

namespace CmdVault

example : extractVariables "git commit -m \x22\x7b\x7bmessage\x7d\x7d\x22" = ["message"] := by decide

example : extractVariables "a\x7b\x7b" = [] := by decide

example : extractVariables "a \x7b\x7b\x7d\x7d b" = [] := by decide

example : extractVariables "\x7b\x7b Path \x7d\x7d and \x7b\x7bPath\x7d\x7d" = ["Path"] := by decide

example : replaceVariables "find \x7b\x7bpath\x7d\x7d -size +\x7b\x7bsize\x7d\x7d" [("path", "/tmp")] =
    "find /tmp -size +\x7b\x7bsize\x7d\x7d" := by decide

example : replaceVariables "\x7b\x7ba\x7d\x7d\x7b\x7bb\x7d\x7d" [("a", "1"), ("b", "2")] = "12" := by decide

example : replaceVariables "x\x7b\x7bx\x7d\x7d" [("x", "")] = "x\x7b\x7bx\x7d\x7d" := by decide

example :
    (topInstances [⟨"1", "c1", "ls", "List", "ls -la", 0⟩,
      ⟨"2", "c1", "ls", "List", "ls -la", 1⟩,
      ⟨"3", "c2", "pwd", "Pwd", "pwd", 2⟩]).map (fun st => (st.text, st.count)) =
    [("ls -la", 2), ("pwd", 1)] := by decide

example :
    filteredCommands "docker" "All"
      [⟨"1", "Run", "docker run", "", "Docker", ["docker"], 0⟩,
       ⟨"2", "List", "ls", "", "System", [], 0⟩] =
    [⟨"1", "Run", "docker run", "", "Docker", ["docker"], 0⟩] := by decide

/-! Helper lemmas about the regex scan. -/

lemma flatten_map_singleton (s : List Char) : (s.map (fun c => [c])).flatten = s := by
  induction s with
  | nil => simp
  | cons c cs ih => simp [ih]

/-- With the empty binding every piece renders back to the exact text it was
scanned from, so the decomposition reconstructs the template. -/
lemma flatten_renderId : ∀ (fuel : Nat) (s : List Char),
    ((piecesFuel fuel s).map (renderPiece [])).flatten = s := by
  intro fuel
  induction fuel with
  | zero =>
    intro s
    simp only [piecesFuel, List.map_map]
    have h : (renderPiece [] ∘ Piece.lit) = fun c => [c] := rfl
    rw [h, flatten_map_singleton]
  | succ fuel ih =>
    intro s
    match s with
    | [] => simp [piecesFuel]
    | [c] => simp [piecesFuel, renderPiece]
    | c1 :: c2 :: rest =>
      by_cases h : (c1 = '\x7b' ∧ c2 = '\x7b' ∧
          rest.takeWhile (fun c => c != '\x7d') ≠ [] ∧
          (rest.dropWhile (fun c => c != '\x7d')).take 2 = ['\x7d', '\x7d'])
      · obtain ⟨h1, h2, h3, h4⟩ := h
        simp only [piecesFuel, if_pos (And.intro h1 (And.intro h2 (And.intro h3 h4)))]
        simp only [List.map_cons, List.flatten_cons, renderPiece]
        rw [ih]
        have hsplit : rest.takeWhile (fun c => c != '\x7d') ++
            (['\x7d', '\x7d'] ++ (rest.dropWhile (fun c => c != '\x7d')).drop 2) = rest := by
          rw [← h4, List.take_append_drop, List.takeWhile_append_dropWhile]
        subst h1; subst h2
        show marker (rest.takeWhile (fun c => c != '\x7d')) ++ _ = _
        rw [marker]
        simp only [List.cons_append, List.append_assoc, List.nil_append]
        simp only [List.cons_append, List.nil_append] at hsplit
        rw [hsplit]
      · simp only [piecesFuel, if_neg h]
        simp only [List.map_cons, List.flatten_cons, renderPiece]
        rw [ih]
        rfl

lemma mem_takeWhile_pred {p : Char → Bool} :
    ∀ {l : List Char} {a : Char}, a ∈ l.takeWhile p → p a = true := by
  intro l
  induction l with
  | nil => intro a h; simp [List.takeWhile] at h
  | cons x xs ih =>
    intro a h
    rw [List.takeWhile_cons] at h
    by_cases hx : p x
    · rw [if_pos hx] at h
      rcases List.mem_cons.mp h with rfl | h2
      · exact hx
      · exact ih h2
    · rw [if_neg hx] at h
      simp at h

/-- Every captured name is a nonempty run of characters other than the
closing brace: empty names never match and names never contain the closing
brace. -/
lemma var_mem_pieces : ∀ (fuel : Nat) (s raw : List Char),
    Piece.var raw ∈ piecesFuel fuel s → raw ≠ [] ∧ ∀ c ∈ raw, ¬ c = '\x7d' := by
  intro fuel
  induction fuel with
  | zero =>
    intro s raw h
    simp [piecesFuel, List.mem_map] at h
  | succ fuel ih =>
    intro s raw h
    match s with
    | [] => simp [piecesFuel] at h
    | [c] => simp [piecesFuel] at h
    | c1 :: c2 :: rest =>
      by_cases hc : (c1 = '\x7b' ∧ c2 = '\x7b' ∧
          rest.takeWhile (fun c => c != '\x7d') ≠ [] ∧
          (rest.dropWhile (fun c => c != '\x7d')).take 2 = ['\x7d', '\x7d'])
      · simp only [piecesFuel, if_pos hc] at h
        rcases List.mem_cons.mp h with heq | hmem
        · have hraw : raw = rest.takeWhile (fun c => c != '\x7d') := by
            injection heq
          subst hraw
          refine ⟨hc.2.2.1, ?_⟩
          intro c hcmem
          have := mem_takeWhile_pred hcmem
          simpa using this
        · exact ih _ _ hmem
      · simp only [piecesFuel, if_neg hc] at h
        rcases List.mem_cons.mp h with heq | hmem
        · exact absurd heq (by simp)
        · exact ih _ _ hmem

/-! Helper lemmas about first-occurrence deduplication. -/

lemma mem_dedupAux : ∀ (l seen : List String) (a : String),
    a ∈ dedupAux seen l ↔ a ∈ l ∧ a ∉ seen := by
  intro l
  induction l with
  | nil => intro seen a; simp [dedupAux]
  | cons x xs ih =>
    intro seen a
    by_cases hx : x ∈ seen
    · simp only [dedupAux, if_pos hx, ih, List.mem_cons]
      constructor
      · rintro ⟨h1, h2⟩; exact ⟨Or.inr h1, h2⟩
      · rintro ⟨h1 | h1, h2⟩
        · subst h1; exact absurd hx h2
        · exact ⟨h1, h2⟩
    · simp only [dedupAux, if_neg hx, List.mem_cons, ih]
      constructor
      · rintro (rfl | ⟨h1, h2⟩)
        · exact ⟨Or.inl rfl, hx⟩
        · exact ⟨Or.inr h1, fun hs => h2 (Or.inr hs)⟩
      · rintro ⟨h1 | h1, h2⟩
        · subst h1; exact Or.inl rfl
        · by_cases hax : a = x
          · exact Or.inl hax
          · exact Or.inr ⟨h1, fun h3 => h3.elim hax h2⟩

lemma nodup_dedupAux : ∀ (l seen : List String), (dedupAux seen l).Nodup := by
  intro l
  induction l with
  | nil => intro seen; simp [dedupAux]
  | cons x xs ih =>
    intro seen
    by_cases hx : x ∈ seen
    · simp only [dedupAux, if_pos hx]; exact ih seen
    · simp only [dedupAux, if_neg hx]
      refine List.nodup_cons.mpr ⟨?_, ih _⟩
      intro hmem
      obtain ⟨_, hns⟩ := (mem_dedupAux _ _ _).mp hmem
      exact hns (List.mem_cons_self _ _)

lemma pairwise_dedupAux : ∀ (l seen : List String),
    (dedupAux seen l).Pairwise (fun a b => firstIdx l a < firstIdx l b) := by
  intro l
  induction l with
  | nil => intro seen; simp [dedupAux]
  | cons x xs ih =>
    intro seen
    by_cases hx : x ∈ seen
    · simp only [dedupAux, if_pos hx]
      refine List.Pairwise.imp_of_mem ?_ (ih seen)
      intro a b ha hb hab
      obtain ⟨haxs, hasn⟩ := (mem_dedupAux _ _ _).mp ha
      obtain ⟨hbxs, hbsn⟩ := (mem_dedupAux _ _ _).mp hb
      have hax : ¬ x = a := fun h => hasn (h ▸ hx)
      have hbx : ¬ x = b := fun h => hbsn (h ▸ hx)
      simp only [firstIdx, if_neg hax, if_neg hbx]
      omega
    · simp only [dedupAux, if_neg hx]
      refine List.pairwise_cons.mpr ⟨?_, ?_⟩
      · intro b hb
        obtain ⟨hbxs, hbsn⟩ := (mem_dedupAux _ _ _).mp hb
        have hbx : ¬ x = b := fun h => hbsn (by rw [h]; exact List.mem_cons_self _ _)
        have h0 : firstIdx (x :: xs) x = 0 := by simp [firstIdx]
        have hb1 : firstIdx (x :: xs) b = firstIdx xs b + 1 := by simp [firstIdx, hbx]
        omega
      · refine List.Pairwise.imp_of_mem ?_ (ih (x :: seen))
        intro a b ha hb hab
        obtain ⟨haxs, hasn⟩ := (mem_dedupAux _ _ _).mp ha
        obtain ⟨hbxs, hbsn⟩ := (mem_dedupAux _ _ _).mp hb
        have hax : ¬ x = a := fun h => hasn (by rw [h]; exact List.mem_cons_self _ _)
        have hbx : ¬ x = b := fun h => hbsn (by rw [h]; exact List.mem_cons_self _ _)
        simp only [firstIdx, if_neg hax, if_neg hbx]
        omega

lemma dedupFirst_eq_nil (l : List String) : dedupFirst l = [] ↔ l = [] := by
  cases l with
  | nil => simp [dedupFirst, dedupAux]
  | cons x xs => simp [dedupFirst, dedupAux]

/-- C1: for every template, extractVariables has no duplicates, contains
exactly the trimmed names of the placeholder matches, and lists them so that
the indices of their first appearances among the matches are strictly
increasing (order of first appearance); the result is empty exactly when the
template has no placeholder match; malformed markers are never matched: every
captured raw name is nonempty and free of closing braces, and the concrete
templates with an unmatched opening pair and with an empty name yield no
entry. -/
theorem extractVariables_correct (T : String) :
    (extractVariables T).Nodup ∧
    (∀ n, n ∈ extractVariables T ↔ n ∈ trimmedNames T) ∧
    (extractVariables T).Pairwise
      (fun a b => firstIdx (trimmedNames T) a < firstIdx (trimmedNames T) b) ∧
    (extractVariables T = [] ↔ rawNames T = []) ∧
    (∀ raw ∈ rawNames T, raw ≠ [] ∧ ∀ c ∈ raw, ¬ c = '\x7d') ∧
    extractVariables "npm \x7b\x7b" = [] ∧
    extractVariables "a \x7b\x7b\x7d\x7d b" = [] := by
  refine ⟨nodup_dedupAux _ _, ?_, pairwise_dedupAux _ _, ?_, ?_, by decide, by decide⟩
  · intro n
    rw [extractVariables, dedupFirst, mem_dedupAux]
    simp
  · rw [extractVariables, dedupFirst_eq_nil, trimmedNames]
    exact List.map_eq_nil_iff
  · intro raw hraw
    rw [rawNames, List.mem_filterMap] at hraw
    obtain ⟨p, hp, hpr⟩ := hraw
    cases p with
    | lit c => simp [varRaw] at hpr
    | var r =>
      simp only [varRaw, Option.some.injEq] at hpr
      subst hpr
      exact var_mem_pieces _ _ _ hp

/-- Witness for C1 at the template of the spec example. -/
theorem extractVariables_correct_witness :
    extractVariables "git commit -m \x22\x7b\x7bmessage\x7d\x7d\x22" = ["message"] ∧
    (extractVariables "git commit -m \x22\x7b\x7bmessage\x7d\x7d\x22").Nodup ∧
    (∀ raw ∈ rawNames "git commit -m \x22\x7b\x7bmessage\x7d\x7d\x22",
      raw ≠ [] ∧ ∀ c ∈ raw, ¬ c = '\x7d') :=
  ⟨by decide, (extractVariables_correct "git commit -m \x22\x7b\x7bmessage\x7d\x7d\x22").1,
    (extractVariables_correct "git commit -m \x22\x7b\x7bmessage\x7d\x7d\x22").2.2.2.2.1⟩

/-! Substitution: unbound and empty bindings. -/

lemma varUnbound_nil (p : Piece) : varUnbound [] p := by
  cases p with
  | lit c => trivial
  | var raw => exact Or.inl rfl

lemma renderPiece_of_unbound (values : Bindings) (raw : List Char)
    (h : varUnbound values (Piece.var raw)) :
    renderPiece values (Piece.var raw) = marker raw := by
  rcases h with h | h <;>
    simp [renderPiece, substFor, h]

/-- C2: the output is the concatenation of the per-occurrence renderings; an
occurrence whose trimmed name is unbound or bound to the empty string renders
to exactly the untrimmed marker text it was matched from; when every
occurrence is unbound or empty the output is the template itself; in
particular replaceVariables with the empty binding is the identity. -/
theorem replaceVariables_unbound_correct (T : String) (B : Bindings) :
    ((replaceVariables T B).data = ((piecesOf T).map (renderPiece B)).flatten) ∧
    (∀ raw, Piece.var raw ∈ piecesOf T → varUnbound B (Piece.var raw) →
      renderPiece B (Piece.var raw) = marker raw) ∧
    ((∀ p ∈ piecesOf T, varUnbound B p) → replaceVariables T B = T) ∧
    replaceVariables T [] = T := by
  have hall : ∀ (B' : Bindings), (∀ p ∈ piecesOf T, varUnbound B' p) →
      replaceVariables T B' = T := by
    intro B' hB
    have hmap : (piecesOf T).map (renderPiece B') = (piecesOf T).map (renderPiece []) := by
      apply List.map_congr_left
      intro p hp
      cases p with
      | lit c => rfl
      | var raw =>
        rw [renderPiece_of_unbound B' raw (hB _ hp),
          renderPiece_of_unbound [] raw (varUnbound_nil _)]
    show String.mk (((piecesOf T).map (renderPiece B')).flatten) = T
    rw [hmap, piecesOf, flatten_renderId]
  refine ⟨rfl, ?_, hall B, hall [] (fun p _ => varUnbound_nil p)⟩
  intro raw _ h
  exact renderPiece_of_unbound B raw h

/-- Witness for C2: a bound name is left alone when unmentioned, and the
empty binding round-trips, at the template of the spec example. -/
theorem replaceVariables_unbound_correct_witness :
    replaceVariables "cd \x7b\x7b dir \x7d\x7d" [("other", "v")] = "cd \x7b\x7b dir \x7d\x7d" ∧
    replaceVariables "find \x7b\x7bpath\x7d\x7d -size +\x7b\x7bsize\x7d\x7d" [] =
      "find \x7b\x7bpath\x7d\x7d -size +\x7b\x7bsize\x7d\x7d" :=
  ⟨(replaceVariables_unbound_correct "cd \x7b\x7b dir \x7d\x7d" [("other", "v")]).2.2.1
      (by decide),
    (replaceVariables_unbound_correct "find \x7b\x7bpath\x7d\x7d -size +\x7b\x7bsize\x7d\x7d"
      [("x", "1")]).2.2.2⟩

/-- C3 counterexample: with the binding mapping x to the literal marker text,
the name x is bound to a non-empty value and yet the output of
replaceVariables still contains a placeholder occurrence of x (substituted
values are not re-scanned), refuting the claim that the output contains no
occurrence of any name bound to a non-empty value. -/
theorem replaceVariables_bound_name_counterexample :
    lookupVal [("x", "\x7b\x7bx\x7d\x7d")] "x" = some "\x7b\x7bx\x7d\x7d" ∧
    ("\x7b\x7bx\x7d\x7d" : String) ≠ "" ∧
    replaceVariables "\x7b\x7bx\x7d\x7d" [("x", "\x7b\x7bx\x7d\x7d")] = "\x7b\x7bx\x7d\x7d" ∧
    "x" ∈ extractVariables (replaceVariables "\x7b\x7bx\x7d\x7d" [("x", "\x7b\x7bx\x7d\x7d")]) := by
  refine ⟨by decide, by decide, by decide, by decide⟩

/-- C3 amended: the decomposition of T into literal characters and matches
reconstructs T exactly (all literal text is preserved byte for byte), the
output of replaceVariables is the concatenation of the per-piece renderings,
every occurrence whose trimmed name is bound to a non-empty value is rendered
as exactly that value (full substitution of the occurrences of T, with no
re-scan of the substituted text), and literal characters render to
themselves. -/
theorem replaceVariables_full_subst (T : String) (B : Bindings) :
    (((piecesOf T).map (renderPiece [])).flatten = T.data) ∧
    ((replaceVariables T B).data = ((piecesOf T).map (renderPiece B)).flatten) ∧
    (∀ raw v, Piece.var raw ∈ piecesOf T →
      lookupVal B (String.mk (trimChars raw)) = some v → v ≠ "" →
      renderPiece B (Piece.var raw) = v.data) ∧
    (∀ c, renderPiece B (Piece.lit c) = [c]) := by
  refine ⟨?_, rfl, ?_, fun c => rfl⟩
  · rw [piecesOf, flatten_renderId]
  · intro raw v _ hv hne
    simp [renderPiece, substFor, hv, hne]

/-- Witness for C3 (amended) at the template of the spec example. -/
theorem replaceVariables_full_subst_witness :
    renderPiece [("path", "/tmp")] (Piece.var ['p', 'a', 't', 'h']) = "/tmp".data ∧
    replaceVariables "find \x7b\x7bpath\x7d\x7d -size +\x7b\x7bsize\x7d\x7d" [("path", "/tmp")] =
      "find /tmp -size +\x7b\x7bsize\x7d\x7d" :=
  ⟨(replaceVariables_full_subst "find \x7b\x7bpath\x7d\x7d -size +\x7b\x7bsize\x7d\x7d"
      [("path", "/tmp")]).2.2.1 ['p', 'a', 't', 'h'] "/tmp" (by decide) (by decide) (by decide),
    by decide⟩

/-! Filtering. -/

lemma containsSub_nil (hay : List Char) : containsSub [] hay = true := by
  cases hay with
  | nil => rfl
  | cons c rest => rfl

lemma includesCI_empty (hay : String) : includesCI hay "" = true := by
  show containsSub (toLowerStr "").data (toLowerStr hay).data = true
  exact containsSub_nil _

/-- C5: a command is in the filtered list exactly when it is among the
commands, its category passes the sentinel-or-equal test, and the query is
empty or a case-insensitive substring of the title, the description or some
tag.  (An empty query passes the search test because the empty string is a
substring of every title.) -/
theorem filteredCommands_correct (searchQuery selectedCategory : String)
    (commands : List Command) (cmd : Command) :
    cmd ∈ filteredCommands searchQuery selectedCategory commands ↔
      cmd ∈ commands ∧
      (selectedCategory = "All" ∨ cmd.category = selectedCategory) ∧
      (searchQuery = "" ∨ includesCI cmd.title searchQuery = true ∨
        includesCI cmd.description searchQuery = true ∨
        ∃ t ∈ cmd.tags, includesCI t searchQuery = true) := by
  rw [filteredCommands, List.mem_filter]
  simp only [Bool.and_eq_true, matchesSearch, matchesCategory, Bool.or_eq_true,
    decide_eq_true_eq, List.any_eq_true]
  constructor
  · rintro ⟨hm, hs, hc⟩
    exact ⟨hm, hc, Or.inr (or_assoc.mp hs)⟩
  · rintro ⟨hm, hc, hq⟩
    refine ⟨hm, ?_, hc⟩
    rcases hq with rfl | hq
    · exact Or.inl (Or.inl (includesCI_empty _))
    · exact or_assoc.mpr hq

/-- Witness for C5 at the spec example: with query docker and category All,
the command tagged docker matches and the untagged one does not. -/
theorem filteredCommands_correct_witness :
    (⟨"1", "Run", "docker run", "", "Docker", ["docker"], 0⟩ : Command) ∈
      filteredCommands "docker" "All"
        [⟨"1", "Run", "docker run", "", "Docker", ["docker"], 0⟩,
         ⟨"2", "List", "ls", "", "System", [], 0⟩] ∧
    ¬ (⟨"2", "List", "ls", "", "System", [], 0⟩ : Command) ∈
      filteredCommands "docker" "All"
        [⟨"1", "Run", "docker run", "", "Docker", ["docker"], 0⟩,
         ⟨"2", "List", "ls", "", "System", [], 0⟩] :=
  ⟨(filteredCommands_correct "docker" "All" _ _).mpr
      ⟨by decide, Or.inl rfl, Or.inr (Or.inr (Or.inr ⟨"docker", by decide, by decide⟩))⟩,
    by decide⟩

lemma map_update_id (ec : Command) (data : CommandFormData) (cmds : List Command)
    (h : ∀ c ∈ cmds, c.id ≠ ec.id) :
    cmds.map (fun c => if c.id = ec.id then updateFields data c else c) = cmds := by
  induction cmds with
  | nil => rfl
  | cons x xs ih =>
    simp only [List.map_cons]
    rw [if_neg (h x (List.mem_cons_self _ _)),
      ih (fun c hc => h c (List.mem_cons_of_mem _ hc))]

/-- C6 counterexample: updating with an id absent from the collection leaves
the collection unchanged but surfaces nothing: the handler emits no notice at
all, refuting the claim that a NotFound error is surfaced to the user. -/
theorem update_missing_counterexample :
    (handleSaveEffects (some cmdGhost) formDemo "new-id" 7 [cmdA]).2 = [] ∧
    (handleSaveEffects (some cmdGhost) formDemo "new-id" 7 [cmdA]).1 = [cmdA] ∧
    (∀ c ∈ [cmdA], c.id ≠ cmdGhost.id) := by
  refine ⟨rfl, by decide, by decide⟩

/-- C6 amended: for every store state and id absent from the collection, the
update branch of handleSaveCommand leaves the collection entirely unchanged
(same records, same order) and surfaces no error: it is a silent no-op. -/
theorem update_missing_noop (ec : Command) (data : CommandFormData)
    (newId : String) (now : Nat) (cmds : List Command)
    (h : ∀ c ∈ cmds, c.id ≠ ec.id) :
    handleSaveEffects (some ec) data newId now cmds = (cmds, []) := by
  show (cmds.map (fun c => if c.id = ec.id then updateFields data c else c),
    ([] : List String)) = (cmds, [])
  rw [map_update_id ec data cmds h]

/-- Witness for C6 (amended). -/
theorem update_missing_noop_witness :
    handleSaveEffects (some cmdGhost) formDemo "nid" 9 [cmdA, cmdB] = ([cmdA, cmdB], []) :=
  update_missing_noop cmdGhost formDemo "nid" 9 [cmdA, cmdB] (by decide)

/-- C7: updating an id maps the collection in place: the length is unchanged,
every record with a different id is unchanged at its position, and every
record with the target id keeps its id and createdAt while taking all five
form fields from the submitted data. -/
theorem update_present_frame (ec : Command) (data : CommandFormData)
    (newId : String) (now : Nat) (cmds : List Command) :
    (handleSaveCommand (some ec) data newId now cmds).length = cmds.length ∧
    (∀ (i : Nat) (c : Command), cmds[i]? = some c → c.id ≠ ec.id →
      (handleSaveCommand (some ec) data newId now cmds)[i]? = some c) ∧
    (∀ (i : Nat) (c : Command), cmds[i]? = some c → c.id = ec.id →
      (handleSaveCommand (some ec) data newId now cmds)[i]? = some
        { id := c.id, title := data.title, template := data.template,
          description := data.description, category := data.category,
          tags := data.tags, createdAt := c.createdAt }) := by
  refine ⟨?_, ?_, ?_⟩
  · show (cmds.map _).length = cmds.length
    exact List.length_map _ _
  · intro i c hc hne
    show (cmds.map _)[i]? = some c
    rw [List.getElem?_map, hc]
    show some (if c.id = ec.id then updateFields data c else c) = some c
    rw [if_neg hne]
  · intro i c hc heq
    show (cmds.map _)[i]? = _
    rw [List.getElem?_map, hc]
    show some (if c.id = ec.id then updateFields data c else c) = _
    rw [if_pos heq]
    rfl

/-- Witness for C7. -/
theorem update_present_frame_witness :
    (handleSaveCommand (some cmdA) formDemo "n" 99 [cmdA, cmdB])[1]? = some cmdB ∧
    (handleSaveCommand (some cmdA) formDemo "n" 99 [cmdA, cmdB])[0]? = some
      { id := cmdA.id, title := formDemo.title, template := formDemo.template,
        description := formDemo.description, category := formDemo.category,
        tags := formDemo.tags, createdAt := cmdA.createdAt } :=
  ⟨(update_present_frame cmdA formDemo "n" 99 [cmdA, cmdB]).2.1 1 cmdB (by decide) (by decide),
    (update_present_frame cmdA formDemo "n" 99 [cmdA, cmdB]).2.2 0 cmdA (by decide) (by decide)⟩

/-- C8: deleting an absent id is a no-op (the collection, hence its length
and order, is unchanged); in general the result is a sublist of the
collection (relative order of survivors preserved), contains no record with
the deleted id, keeps every record with a different id, and keeps the exact
multiplicity of every record with a different id. -/
theorem delete_correct (id : String) (cmds : List Command) :
    ((∀ c ∈ cmds, c.id ≠ id) → handleDeleteCommand id cmds = cmds) ∧
    (handleDeleteCommand id cmds).Sublist cmds ∧
    (∀ c ∈ handleDeleteCommand id cmds, c.id ≠ id) ∧
    (∀ c ∈ cmds, c.id ≠ id → c ∈ handleDeleteCommand id cmds) ∧
    (∀ c : Command, c.id ≠ id → (handleDeleteCommand id cmds).count c = cmds.count c) := by
  refine ⟨?_, List.filter_sublist _, ?_, ?_, ?_⟩
  · intro h
    apply List.filter_eq_self.mpr
    intro c hc
    simpa using h c hc
  · intro c hc
    have := (List.mem_filter.mp hc).2
    simpa using this
  · intro c hc hne
    exact List.mem_filter.mpr ⟨hc, by simpa using hne⟩
  · intro c hne
    exact List.count_filter (by simpa using hne)

/-- Witness for C8. -/
theorem delete_correct_witness :
    handleDeleteCommand "zzz" [cmdA, cmdB] = [cmdA, cmdB] ∧
    handleDeleteCommand "1" [cmdA, cmdB] = [cmdB] :=
  ⟨(delete_correct "zzz" [cmdA, cmdB]).1 (by decide), by decide⟩

/-! AI assist. -/

/-- C9 counterexample: a parsable but schema-violating response is not a
failure of the service: with a non-empty API key and response text null
(JSON.parse of which yields the JSON null value, which does not have the
Command shape), the service returns the value as a success, and the handler
overwrites the editor form with it and reports nothing, refuting the claim
that every malformed response is surfaced and leaves the form untouched. -/
theorem ai_schema_violation_counterexample :
    commandShaped JsonValue.null = false ∧
    generateCommandFromDescription "key" (NetOutcome.success (some "null"))
      (fun t => if t = "null" then some JsonValue.null else none) =
      AiResult.ok JsonValue.null ∧
    (handleAiGenerate "list files" (AiResult.ok JsonValue.null) editorDemo).formData =
      JsonValue.null ∧
    editorDemo.formData ≠ JsonValue.null ∧
    (handleAiGenerate "list files" (AiResult.ok JsonValue.null) editorDemo).notices =
      editorDemo.notices := by
  refine ⟨rfl, rfl, rfl, ?_, rfl⟩
  intro h
  exact JsonValue.noConfusion h

/-- C9 amended: the failures the service itself detects - a missing API key,
a thrown network error, an absent or empty response text, and an unparsable
response - are each reported to the caller as an error (a distinguishable
failure), and on any error the handler leaves every form field untouched
while surfacing the alert; but a parsable response of any shape, including
one violating the Command schema, is returned as a success through the
unchecked cast, and on success the handler overwrites the whole form with
the unvalidated value without reporting anything. -/
theorem aiFailure_amended (apiKey : String) (net : NetOutcome)
    (parse : String → Option JsonValue) (prompt : String) (st : EditorState) :
    (apiKey = "" → generateCommandFromDescription apiKey net parse =
      AiResult.error "API Key is missing. Please check your environment configuration.") ∧
    (∀ m, apiKey ≠ "" → net = NetOutcome.fail m →
      generateCommandFromDescription apiKey net parse = AiResult.error m) ∧
    (apiKey ≠ "" → net = NetOutcome.success none →
      generateCommandFromDescription apiKey net parse = AiResult.error "Empty response from AI") ∧
    (apiKey ≠ "" → net = NetOutcome.success (some "") →
      generateCommandFromDescription apiKey net parse = AiResult.error "Empty response from AI") ∧
    (∀ t, apiKey ≠ "" → net = NetOutcome.success (some t) → t ≠ "" → parse t = none →
      generateCommandFromDescription apiKey net parse = AiResult.error "JSON parse error") ∧
    (∀ t v, apiKey ≠ "" → net = NetOutcome.success (some t) → t ≠ "" → parse t = some v →
      generateCommandFromDescription apiKey net parse = AiResult.ok v) ∧
    (∀ m, (handleAiGenerate prompt (AiResult.error m) st).formData = st.formData) ∧
    (∀ m, String.mk (trimChars prompt.data) ≠ "" →
      (handleAiGenerate prompt (AiResult.error m) st).notices = st.notices ++
        ["Failed to generate command. Please check your API key or try again."]) ∧
    (∀ v, String.mk (trimChars prompt.data) ≠ "" →
      handleAiGenerate prompt (AiResult.ok v) st = { st with formData := v }) := by
  refine ⟨?_, ?_, ?_, ?_, ?_, ?_, ?_, ?_, ?_⟩
  · intro h
    simp [generateCommandFromDescription, h]
  · intro m hk hn
    subst hn
    simp [generateCommandFromDescription, hk]
  · intro hk hn
    subst hn
    simp [generateCommandFromDescription, hk]
  · intro hk hn
    subst hn
    simp [generateCommandFromDescription, hk]
  · intro t hk hn ht hp
    subst hn
    simp [generateCommandFromDescription, hk, ht, hp]
  · intro t v hk hn ht hp
    subst hn
    simp [generateCommandFromDescription, hk, ht, hp]
  · intro m
    rw [handleAiGenerate]
    by_cases hp : String.mk (trimChars prompt.data) = ""
    · rw [if_pos hp]
    · rw [if_neg hp]
  · intro m hp
    rw [handleAiGenerate, if_neg hp]
  · intro v hp
    rw [handleAiGenerate, if_neg hp]

/-- Witness for C9 (amended). -/
theorem aiFailure_amended_witness :
    generateCommandFromDescription "" (NetOutcome.success none) (fun _ => none) =
      AiResult.error "API Key is missing. Please check your environment configuration." ∧
    (handleAiGenerate "list files" (AiResult.error "boom") editorDemo).formData =
      editorDemo.formData ∧
    (handleAiGenerate "list files" (AiResult.error "boom") editorDemo).notices =
      ["Failed to generate command. Please check your API key or try again."] ∧
    handleAiGenerate "list files" (AiResult.ok formJson) editorDemo =
      { editorDemo with formData := formJson } :=
  ⟨(aiFailure_amended "" (NetOutcome.success none) (fun _ => none) "list files"
      editorDemo).1 rfl,
    (aiFailure_amended "" (NetOutcome.success none) (fun _ => none) "list files"
      editorDemo).2.2.2.2.2.2.1 "boom",
    (aiFailure_amended "" (NetOutcome.success none) (fun _ => none) "list files"
      editorDemo).2.2.2.2.2.2.2.1 "boom" (by decide),
    (aiFailure_amended "" (NetOutcome.success none) (fun _ => none) "list files"
      editorDemo).2.2.2.2.2.2.2.2 formJson (by decide)⟩

/-! Whitespace-only markers. -/

lemma piecesFuel_nil (fuel : Nat) : piecesFuel fuel [] = [] := by
  cases fuel <;> rfl

lemma dropWhile_all {p : Char → Bool} :
    ∀ {l : List Char}, (∀ c ∈ l, p c = true) → l.dropWhile p = [] := by
  intro l
  induction l with
  | nil => intro _; rfl
  | cons x xs ih =>
    intro h
    rw [List.dropWhile_cons, if_pos (h x (List.mem_cons_self _ _))]
    exact ih (fun c hc => h c (List.mem_cons_of_mem _ hc))

lemma trimChars_all_whitespace {w : List Char} (h : ∀ c ∈ w, c.isWhitespace = true) :
    trimChars w = [] := by
  rw [trimChars, dropWhile_all h]
  rfl

lemma takeWhile_append_all {p : Char → Bool} (r : List Char) :
    ∀ (w : List Char), (∀ c ∈ w, p c = true) →
      (w ++ r).takeWhile p = w ++ r.takeWhile p ∧ (w ++ r).dropWhile p = r.dropWhile p := by
  intro w
  induction w with
  | nil => intro _; simp
  | cons x xs ih =>
    intro h
    have hx := h x (List.mem_cons_self _ _)
    have hxs := ih (fun c hc => h c (List.mem_cons_of_mem _ hc))
    constructor
    · rw [List.cons_append, List.takeWhile_cons, if_pos hx, hxs.1, List.cons_append]
    · rw [List.cons_append, List.dropWhile_cons, if_pos hx, hxs.2]

/-- C10: a marker whose name is a nonempty run of whitespace is matched:
extractVariables returns the empty string for it, its trimmed name list is
exactly the empty string, and replaceVariables looks that name up under the
key of the empty string, so with no non-empty binding for that key the marker
is reproduced as literal text. -/
theorem whitespace_marker_correct (w : List Char) (B : Bindings)
    (hw : w ≠ []) (hws : ∀ c ∈ w, c.isWhitespace = true)
    (hB : lookupVal B "" = none ∨ lookupVal B "" = some "") :
    trimmedNames (String.mk ('\x7b' :: '\x7b' :: (w ++ ['\x7d', '\x7d']))) = [""] ∧
    extractVariables (String.mk ('\x7b' :: '\x7b' :: (w ++ ['\x7d', '\x7d']))) = [""] ∧
    replaceVariables (String.mk ('\x7b' :: '\x7b' :: (w ++ ['\x7d', '\x7d']))) B =
      String.mk ('\x7b' :: '\x7b' :: (w ++ ['\x7d', '\x7d'])) := by
  have hnotbrace : ∀ c ∈ w, (c != '\x7d') = true := by
    intro c hc
    have hcw := hws c hc
    have : ¬ c = '\x7d' := by
      intro heq
      subst heq
      simp at hcw
    simpa using this
  have htw := (@takeWhile_append_all (fun c => c != '\x7d') ['\x7d', '\x7d'] w hnotbrace).1
  have hdw := (@takeWhile_append_all (fun c => c != '\x7d') ['\x7d', '\x7d'] w hnotbrace).2
  have h0 : List.takeWhile (fun c => c != '\x7d') ['\x7d', '\x7d'] = [] := by decide
  have h1 : List.dropWhile (fun c => c != '\x7d') ['\x7d', '\x7d'] = ['\x7d', '\x7d'] := by
    decide
  have htake : (w ++ ['\x7d', '\x7d']).takeWhile (fun c => c != '\x7d') = w := by
    rw [htw, h0, List.append_nil]
  have hdrop : (w ++ ['\x7d', '\x7d']).dropWhile (fun c => c != '\x7d') = ['\x7d', '\x7d'] := by
    rw [hdw, h1]
  have hpieces : piecesOf (String.mk ('\x7b' :: '\x7b' :: (w ++ ['\x7d', '\x7d']))) =
      [Piece.var w] := by
    show piecesFuel ('\x7b' :: '\x7b' :: (w ++ ['\x7d', '\x7d'])).length
      ('\x7b' :: '\x7b' :: (w ++ ['\x7d', '\x7d'])) = [Piece.var w]
    rw [List.length_cons, List.length_cons]
    simp [piecesFuel, htake, hdrop, hw, piecesFuel_nil]
  have htrim : String.mk (trimChars w) = "" := by
    rw [trimChars_all_whitespace hws]
  have hnames : trimmedNames (String.mk ('\x7b' :: '\x7b' :: (w ++ ['\x7d', '\x7d']))) = [""] := by
    rw [trimmedNames, rawNames, hpieces]
    simp [varRaw, htrim]
  refine ⟨hnames, ?_, ?_⟩
  · rw [extractVariables, hnames]
    rfl
  · rw [replaceVariables, hpieces]
    have hsub : substFor B w = marker w := by
      rw [substFor, htrim]
      rcases hB with h | h <;> simp [h]
    simp only [List.map_cons, List.map_nil, renderPiece, hsub]
    rw [marker]
    simp

/-- Witness for C10 at the one-space marker, with the empty string bound to
the empty string. -/
theorem whitespace_marker_correct_witness :
    extractVariables (String.mk ('\x7b' :: '\x7b' :: ([' '] ++ ['\x7d', '\x7d']))) = [""] ∧
    replaceVariables (String.mk ('\x7b' :: '\x7b' :: ([' '] ++ ['\x7d', '\x7d']))) [("", "")] =
      String.mk ('\x7b' :: '\x7b' :: ([' '] ++ ['\x7d', '\x7d'])) :=
  ⟨(whitespace_marker_correct [' '] [("", "")] (by decide) (by decide) (Or.inr rfl)).2.1,
    (whitespace_marker_correct [' '] [("", "")] (by decide) (by decide) (Or.inr rfl)).2.2⟩

/-! Dashboard aggregation. -/

lemma dedupAux_append_singleton (x : String) :
    ∀ (l seen : List String),
      dedupAux seen (l ++ [x]) =
        dedupAux seen l ++ (if x ∈ seen ∨ x ∈ l then [] else [x]) := by
  intro l
  induction l with
  | nil =>
    intro seen
    by_cases hx : x ∈ seen
    · simp [dedupAux, hx]
    · simp [dedupAux, hx]
  | cons y ys ih =>
    intro seen
    by_cases hy : y ∈ seen
    · rw [List.cons_append]
      simp only [dedupAux, if_pos hy]
      rw [ih seen]
      congr 1
      by_cases hxy : x = y
      · subst hxy
        simp [hy]
      · simp [List.mem_cons, hxy]
    · rw [List.cons_append]
      simp only [dedupAux, if_neg hy]
      rw [ih (y :: seen)]
      have hcond : (x ∈ y :: seen ∨ x ∈ ys) ↔ (x ∈ seen ∨ x ∈ y :: ys) := by
        constructor
        · rintro (hm | hm)
          · rcases List.mem_cons.mp hm with rfl | hm2
            · exact Or.inr (List.mem_cons_self _ _)
            · exact Or.inl hm2
          · exact Or.inr (List.mem_cons_of_mem _ hm)
        · rintro (hm | hm)
          · exact Or.inl (List.mem_cons_of_mem _ hm)
          · rcases List.mem_cons.mp hm with rfl | hm2
            · exact Or.inl (List.mem_cons_self _ _)
            · exact Or.inr hm2
      have hieq : (if x ∈ y :: seen ∨ x ∈ ys then ([] : List String) else [x]) =
          (if x ∈ seen ∨ x ∈ y :: ys then [] else [x]) := by
        by_cases hc : x ∈ y :: seen ∨ x ∈ ys
        · rw [if_pos hc, if_pos (hcond.mp hc)]
        · rw [if_neg hc, if_neg (fun h => hc (hcond.mpr h))]
      rw [hieq, List.cons_append]

lemma mem_specGroups (P : List CopyLog) (s : String) :
    s ∈ specGroups P ↔ s ∈ P.map (fun l => l.filledCommand) := by
  rw [specGroups, dedupFirst, mem_dedupAux]
  simp

lemma specGroups_append (P : List CopyLog) (log : CopyLog) :
    specGroups (P ++ [log]) = specGroups P ++
      (if log.filledCommand ∈ P.map (fun l => l.filledCommand) then []
        else [log.filledCommand]) := by
  rw [specGroups, List.map_append]
  show dedupAux [] (P.map _ ++ [log.filledCommand]) = _
  rw [dedupAux_append_singleton]
  congr 1
  simp

lemma countFilled_append (P : List CopyLog) (log : CopyLog) (s : String) :
    countFilled (P ++ [log]) s =
      countFilled P s + (if log.filledCommand = s then 1 else 0) := by
  rw [countFilled, countFilled, List.filter_append, List.length_append]
  congr 1
  by_cases h : log.filledCommand = s
  · simp [List.filter_cons, h]
  · simp [List.filter_cons, h]

lemma find?_append_some {p : CopyLog → Bool} {l1 l2 : List CopyLog} {a : CopyLog}
    (h : l1.find? p = some a) : (l1 ++ l2).find? p = some a := by
  induction l1 with
  | nil => simp [List.find?] at h
  | cons x xs ih =>
    by_cases hx : p x = true
    · rw [List.find?_cons_of_pos _ hx] at h
      rw [List.cons_append, List.find?_cons_of_pos _ hx]
      exact h
    · rw [List.find?_cons_of_neg _ hx] at h
      rw [List.cons_append, List.find?_cons_of_neg _ hx]
      exact ih h

lemma find?_append_none {p : CopyLog → Bool} {l1 l2 : List CopyLog}
    (h : l1.find? p = none) : (l1 ++ l2).find? p = l2.find? p := by
  induction l1 with
  | nil => rfl
  | cons x xs ih =>
    by_cases hx : p x = true
    · rw [List.find?_cons_of_pos _ hx] at h
      exact absurd h (by simp)
    · rw [List.find?_cons_of_neg _ hx] at h
      rw [List.cons_append, List.find?_cons_of_neg _ hx]
      exact ih h

lemma firstTitle_append_of_mem (P : List CopyLog) (log : CopyLog) (s : String)
    (h : s ∈ P.map (fun l => l.filledCommand)) :
    firstTitle (P ++ [log]) s = firstTitle P s := by
  obtain ⟨l0, hl0, hfl⟩ := List.mem_map.mp h
  have hsome : (P.find? (fun l => decide (l.filledCommand = s))).isSome := by
    rw [List.find?_isSome]
    exact ⟨l0, hl0, by simp [hfl]⟩
  obtain ⟨a, ha⟩ := Option.isSome_iff_exists.mp hsome
  rw [firstTitle, firstTitle, find?_append_some ha, ha]

lemma firstTitle_append_of_not_mem (P : List CopyLog) (log : CopyLog)
    (h : log.filledCommand ∉ P.map (fun l => l.filledCommand)) :
    firstTitle (P ++ [log]) log.filledCommand = log.title := by
  have hnone : P.find? (fun l => decide (l.filledCommand = log.filledCommand)) = none := by
    rw [List.find?_eq_none]
    intro x hx
    simp only [decide_eq_true_eq]
    intro heq
    exact h (List.mem_map.mpr ⟨x, hx, heq⟩)
  rw [firstTitle, find?_append_none hnone, List.find?_cons_of_pos _ (by simp)]

lemma countFilled_eq_zero : ∀ (P : List CopyLog) (s : String),
    s ∉ P.map (fun l => l.filledCommand) → countFilled P s = 0 := by
  intro P
  induction P with
  | nil => intro s _; rfl
  | cons x xs ih =>
    intro s h
    rw [List.map_cons] at h
    have hx : ¬ x.filledCommand = s := by
      intro heq
      apply h
      rw [heq]
      exact List.mem_cons_self _ _
    have hxs : s ∉ xs.map (fun l => l.filledCommand) :=
      fun hm => h (List.mem_cons_of_mem _ hm)
    rw [countFilled, List.filter_cons, if_neg (by simpa using hx)]
    exact ih s hxs

lemma canonicalEntries_any (P : List CopyLog) (k : String) :
    (canonicalEntries P).any (fun e => decide (e.1 = k)) = true ↔ k ∈ specGroups P := by
  rw [canonicalEntries, List.any_eq_true]
  constructor
  · rintro ⟨e, he, hek⟩
    obtain ⟨s, hs, hse⟩ := List.mem_map.mp he
    rw [decide_eq_true_eq] at hek
    rw [← hse] at hek
    rw [← hek]
    exact hs
  · intro hk
    exact ⟨(k, { count := countFilled P k, text := k, originalTitle := firstTitle P k }),
      List.mem_map.mpr ⟨k, hk, rfl⟩, by simp⟩

lemma bump_canonical (P : List CopyLog) (log : CopyLog) :
    bumpInstance (canonicalEntries P) log = canonicalEntries (P ++ [log]) := by
  by_cases hk : log.filledCommand ∈ specGroups P
  · rw [bumpInstance, if_pos ((canonicalEntries_any P log.filledCommand).mpr hk)]
    rw [canonicalEntries, canonicalEntries, List.map_map,
      specGroups_append, if_pos ((mem_specGroups _ _).mp hk), List.append_nil]
    apply List.map_congr_left
    intro s hs
    have hsmem : s ∈ P.map (fun l => l.filledCommand) := (mem_specGroups _ _).mp hs
    show (if s = log.filledCommand then _ else _) = _
    by_cases hsk : s = log.filledCommand
    · rw [if_pos hsk]
      rw [countFilled_append, firstTitle_append_of_mem P log s hsmem]
      have : log.filledCommand = s := hsk.symm
      simp [this]
    · rw [if_neg hsk]
      rw [countFilled_append, firstTitle_append_of_mem P log s hsmem,
        if_neg (fun heq => hsk heq.symm)]
      simp
  · rw [bumpInstance, if_neg (fun h => hk ((canonicalEntries_any P log.filledCommand).mp h))]
    have hknot : log.filledCommand ∉ P.map (fun l => l.filledCommand) :=
      fun h => hk ((mem_specGroups _ _).mpr h)
    rw [canonicalEntries, canonicalEntries, specGroups_append, if_neg hknot,
      List.map_append]
    congr 1
    · apply List.map_congr_left
      intro s hs
      have hsmem : s ∈ P.map (fun l => l.filledCommand) := (mem_specGroups _ _).mp hs
      have hsk : ¬ log.filledCommand = s := by
        intro heq
        apply hknot
        rw [heq]
        exact hsmem
      rw [countFilled_append, if_neg hsk, firstTitle_append_of_mem P log s hsmem]
      simp
    · simp only [List.map_cons, List.map_nil]
      rw [countFilled_append, if_pos rfl, countFilled_eq_zero P _ hknot,
        firstTitle_append_of_not_mem P log hknot]

lemma foldl_bump_canonical : ∀ (logs P : List CopyLog),
    List.foldl bumpInstance (canonicalEntries P) logs = canonicalEntries (P ++ logs) := by
  intro logs
  induction logs with
  | nil => intro P; simp
  | cons log rest ih =>
    intro P
    rw [List.foldl_cons, bump_canonical, ih (P ++ [log])]
    congr 1
    simp

/-- The loop of the stats memo computes the closed form: one entry per
distinct resolved string, in first-encountered order, with the group count
and the first title. -/
lemma instanceEntries_eq (logs : List CopyLog) :
    instanceEntries logs = canonicalEntries logs := by
  have h := foldl_bump_canonical logs []
  rw [List.nil_append] at h
  exact h

lemma map_insertDescBy {α β : Type} (f : α → β) (ca : α → Nat) (cb : β → Nat)
    (hf : ∀ x, cb (f x) = ca x) (e : α) :
    ∀ l : List α, (insertDescBy ca e l).map f = insertDescBy cb (f e) (l.map f) := by
  intro l
  induction l with
  | nil => rfl
  | cons x xs ih =>
    rw [List.map_cons, insertDescBy, insertDescBy]
    by_cases h : ca x ≤ ca e
    · rw [if_pos h, if_pos (by rw [hf, hf]; exact h)]
      rfl
    · rw [if_neg h, if_neg (by rw [hf, hf]; exact h)]
      rw [List.map_cons, ih]

lemma map_sortDescBy {α β : Type} (f : α → β) (ca : α → Nat) (cb : β → Nat)
    (hf : ∀ x, cb (f x) = ca x) :
    ∀ l : List α, (sortDescBy ca l).map f = sortDescBy cb (l.map f) := by
  intro l
  induction l with
  | nil => rfl
  | cons x xs ih =>
    rw [List.map_cons, sortDescBy, sortDescBy, ← ih, map_insertDescBy f ca cb hf]

lemma mem_insertDescBy {α : Type} (cnt : α → Nat) (e : α) :
    ∀ (l : List α) (x : α), x ∈ insertDescBy cnt e l ↔ x = e ∨ x ∈ l := by
  intro l
  induction l with
  | nil => intro x; simp [insertDescBy]
  | cons y ys ih =>
    intro x
    rw [insertDescBy]
    by_cases h : cnt y ≤ cnt e
    · rw [if_pos h]
      simp [List.mem_cons]
    · rw [if_neg h]
      simp [List.mem_cons, ih]
      tauto

lemma pairwise_insertDescBy {α : Type} (cnt : α → Nat) (e : α) :
    ∀ l : List α, l.Pairwise (fun a b => cnt b ≤ cnt a) →
      (insertDescBy cnt e l).Pairwise (fun a b => cnt b ≤ cnt a) := by
  intro l
  induction l with
  | nil => intro _; simp [insertDescBy]
  | cons y ys ih =>
    intro hp
    obtain ⟨hy, hys⟩ := List.pairwise_cons.mp hp
    rw [insertDescBy]
    by_cases h : cnt y ≤ cnt e
    · rw [if_pos h]
      refine List.pairwise_cons.mpr ⟨?_, hp⟩
      intro b hb
      rcases List.mem_cons.mp hb with rfl | hb2
      · exact h
      · exact le_trans (hy b hb2) h
    · rw [if_neg h]
      refine List.pairwise_cons.mpr ⟨?_, ih hys⟩
      intro b hb
      rcases (mem_insertDescBy cnt e ys b).mp hb with rfl | hb2
      · omega
      · exact hy b hb2

lemma pairwise_sortDescBy {α : Type} (cnt : α → Nat) :
    ∀ l : List α, (sortDescBy cnt l).Pairwise (fun a b => cnt b ≤ cnt a) := by
  intro l
  induction l with
  | nil => simp [sortDescBy]
  | cons x xs ih =>
    rw [sortDescBy]
    exact pairwise_insertDescBy cnt x _ ih

/-- C4: the by-exact-resolved-string view equals the specification-side
computation: group logs with identical filledCommand, count per group, rank
by stable descending count over the first-encountered group order and take
the first 10; the produced ranking is sorted by descending count and has at
most 10 entries, and the spec example of two identical logs plus one
different ranks the pair first with count 2. -/
theorem topInstances_correct (logs : List CopyLog) :
    (topInstances logs).map (fun st => (st.text, st.count)) = specTopInstances logs ∧
    (topInstances logs).Pairwise (fun a b => b.count ≤ a.count) ∧
    (topInstances logs).length ≤ 10 ∧
    (topInstances [⟨"1", "c1", "ls", "List", "ls -la", 0⟩,
      ⟨"2", "c1", "ls", "List", "ls -la", 1⟩,
      ⟨"3", "c2", "pwd", "Pwd", "pwd", 2⟩]).map (fun st => (st.text, st.count)) =
      [("ls -la", 2), ("pwd", 1)] := by
  refine ⟨?_, ?_, ?_, by decide⟩
  · rw [topInstances, specTopInstances, instanceEntries_eq]
    rw [List.map_take]
    congr 1
    rw [map_sortDescBy (fun st : InstanceStat => (st.text, st.count))
      (fun st : InstanceStat => st.count) (fun p : String × Nat => p.2) (fun x => rfl)]
    congr 1
    rw [canonicalEntries, List.map_map, List.map_map]
    rfl
  · rw [topInstances]
    exact List.Pairwise.sublist (List.take_sublist _ _) (pairwise_sortDescBy _ _)
  · rw [topInstances]
    exact List.length_take_le _ _

/-- Witness for C4 at the spec example. -/
theorem topInstances_correct_witness :
    (topInstances [⟨"1", "c1", "ls", "List", "ls -la", 0⟩,
      ⟨"2", "c1", "ls", "List", "ls -la", 1⟩,
      ⟨"3", "c2", "pwd", "Pwd", "pwd", 2⟩]).map (fun st => (st.text, st.count)) =
      specTopInstances [⟨"1", "c1", "ls", "List", "ls -la", 0⟩,
        ⟨"2", "c1", "ls", "List", "ls -la", 1⟩,
        ⟨"3", "c2", "pwd", "Pwd", "pwd", 2⟩] :=
  (topInstances_correct [⟨"1", "c1", "ls", "List", "ls -la", 0⟩,
    ⟨"2", "c1", "ls", "List", "ls -la", 1⟩,
    ⟨"3", "c2", "pwd", "Pwd", "pwd", 2⟩]).1

end CmdVault
